import Mathlib

/-!
# Verification of the supervisord client's log-tailing core

Shallow embedding of `tailLog` and `logChan` from `process.go`
(the `Process` methods of the supervisord RPC client), together with
proofs about the offset-reconciliation, seed-trimming and line-splitting
behaviour described in the specification.

Bytes are modelled as natural numbers (`10` is the newline byte `'\n'`);
Go strings are byte sequences, modelled as `List ℕ`.  Go's `int64` offsets
are modelled as `ℤ`.  A Go run-time panic (out-of-range slice or index)
is modelled by `Option`: `none` means the goroutine panics.
-/

namespace Supervisord

/-- The newline byte `'\n'`. -/
def nl : ℕ := 10

/-- Bytes of a (ASCII) string literal, for error descriptions carried on the
output channel. -/
def strBytes (s : String) : List ℕ := s.data.map (fun c => c.toNat)

/-- A successful, well-typed reply of the tail RPC method, after the
`ret[0].(string)` and `ret[1].(int64)` assertions succeed:
`data` is the returned chunk, `endOffset` the reported absolute end offset. -/
structure Snapshot where
  data : List ℕ
  endOffset : ℤ
  deriving Repr, DecidableEq

/-- `strings.Count(data, "\n")`: the number of newline bytes in `data`. -/
def countNl (s : List ℕ) : ℕ := s.countP (fun b => b = nl)

/-- Split a byte sequence at its first newline: `some (pre, post)` where
`pre` ends with the newline and `post` is the rest, or `none` when the
sequence contains no newline.  This is the one step both
`strings.SplitAfterN` and `bufio.Reader.ReadString('\n')` are built on. -/
def breakAfterNl : List ℕ → Option (List ℕ × List ℕ)
  | [] => none
  | b :: rest =>
    if b = nl then some ([nl], rest)
    else
      match breakAfterNl rest with
      | none => none
      | some (pre, post) => some (b :: pre, post)

/-- `strings.SplitAfterN(s, "\n", n)` for `n ≥ 0`: at most `n` substrings,
each but the last ending with a newline, the last holding the rest
(`n = 0` gives the empty list, as Go returns nil). -/
def splitAfterN : List ℕ → ℕ → List (List ℕ)
  | _, 0 => []
  | s, 1 => [s]
  | s, n + 2 =>
    match breakAfterNl s with
    | none => [s]
    | some (pre, post) => pre :: splitAfterN post (n + 1)

/-- The first-read branch of `tailLog` (`offset == 0`):

```
lineCount := strings.Count(data, "\n")
if lineCount > tailLine {
    data = strings.SplitAfterN(data, "\n", lineCount-tailLine+1)[lineCount-tailLine]
}
```

`none` models the index-out-of-range panic Go raises when the indexing
expression exceeds the length of the split (reachable only for
`tailLine < 0`). -/
def firstReadData (data : List ℕ) (tailLine : ℤ) : Option (List ℕ) :=
  if (countNl data : ℤ) > tailLine then
    (splitAfterN data ((countNl data : ℤ) - tailLine + 1).toNat).get?
      ((countNl data : ℤ) - tailLine).toNat
  else
    some data

/-- The subsequent-read branch of `tailLog` (`offset != 0`):

```
newOffset := ret[1].(int64)
if newOffset-offset > 0 {
    dataOffset := len(data) - int(newOffset-offset)
    offset = newOffset
    data = data[dataOffset:]
}
```

Returns `some (data', offset')`; `none` models the slice-bounds panic Go
raises when `dataOffset < 0`, i.e. when the advance exceeds the chunk's
length (`dataOffset ≤ len(data)` always holds since the advance is
positive). -/
def subsequentStep (data : List ℕ) (offset newOffset : ℤ) :
    Option (List ℕ × ℤ) :=
  if newOffset - offset > 0 then
    let dataOffset : ℤ := (data.length : ℤ) - (newOffset - offset)
    if 0 ≤ dataOffset then some (data.drop dataOffset.toNat, newOffset)
    else none
  else
    some (data, offset)

/-- One `<-t.C` iteration of the `tailLog` loop for a successful,
well-typed reply `s`, starting from stored offset `offset`:
`some (offset', written)` gives the new stored offset and the bytes
written to the pipe this tick (`written = []` means `len(data) > 0` is
false and nothing is written); `none` means the goroutine panics. -/
def tailLogTick (offset tailLine : ℤ) (s : Snapshot) : Option (ℤ × List ℕ) :=
  if offset = 0 then
    (firstReadData s.data tailLine).map (fun d => (s.endOffset, d))
  else
    (subsequentStep s.data offset s.endOffset).map (fun p => (p.2, p.1))

/-- Iterating `tailLogTick` over a list of successive successful replies:
`some (finalOffset, writtenPerTick)`, or `none` if some tick panics. -/
def tailLogRun (tailLine : ℤ) : ℤ → List Snapshot → Option (ℤ × List (List ℕ))
  | offset, [] => some (offset, [])
  | offset, s :: rest =>
    match tailLogTick offset tailLine s with
    | none => none
    | some (o, d) => (tailLogRun tailLine o rest).map (fun p => (p.1, d :: p.2))

/-- The error `tailLog`'s deferred clean-up passes to `w.CloseWithError`:
the loop's own error when there is one, otherwise `ctx.Err()` when the
context is done, otherwise `errors.New("tail log quit")`.  Errors are
modelled by their identity relevant to `logChan`: `io.EOF` is
distinguished (compared with `==` there), every other error only by its
description string. -/
inductive CloseErr where
  | ioEOF
  | msg (description : List ℕ)
  deriving Repr, DecidableEq

/-- `err.Error()` of a close error (`io.EOF.Error() = "EOF"`). -/
def errDescription : CloseErr → List ℕ
  | .ioEOF => strBytes "EOF"
  | .msg d => d

/-- The deferred close in `tailLog`:

```
if err == nil {
    if ctx.Err() != nil { err = ctx.Err() } else { err = errors.New("tail log quit") }
}
_ = w.CloseWithError(err)
```
-/
def tailLogFinalErr (loopErr ctxErr : Option CloseErr) : CloseErr :=
  match loopErr with
  | some e => e
  | none =>
    match ctxErr with
    | some e => e
    | none => .msg (strBytes "tail log quit")

/-- `breakAfterNl` consumes at least the newline byte, so the remainder is
strictly shorter. -/
theorem breakAfterNl_shrinks :
    ∀ {content pre post : List ℕ},
      breakAfterNl content = some (pre, post) → post.length < content.length := by
  intro content
  induction content with
  | nil => intro pre post h; simp [breakAfterNl] at h
  | cons b rest ih =>
    intro pre post h
    by_cases hb : b = nl
    · simp [breakAfterNl, hb] at h
      simp [← h.2, List.length_cons]
    · simp only [breakAfterNl, if_neg hb] at h
      cases hr : breakAfterNl rest with
      | none => rw [hr] at h; simp at h
      | some q =>
        rw [hr] at h
        simp at h
        have := @ih q.1 q.2 (by rw [hr])
        rw [← h.2]
        simp [List.length_cons]
        omega

/-- What the `logChan` loop does once the content is exhausted and
`br.ReadString('\n')` returns the close error (discarding the partial
line it also returns):

```
if err == io.EOF { time.Sleep(time.Second); continue }
if err != nil { ch <- err.Error(); return }
```

For `io.EOF` the loop sleeps and retries; the closed pipe keeps
returning `io.EOF`, so the loop never exits, the channel is never
closed and nothing more is emitted — modelled as `none`.  For any other
error the loop sends `err.Error()` and returns, closing the channel. -/
def logChanClose : CloseErr → Option (List (List ℕ))
  | .ioEOF => none
  | .msg d => some [d]

/-- The `logChan` reader loop, as a function of the total byte content the
pipe delivers before closing and the error the pipe was closed with.
Each iteration is one `br.ReadString('\n')`: while a newline is
available the completed line is sent on the channel (`ch <- line`);
once the content is exhausted `ReadString` returns the (discarded)
leftover together with the close error, handled by `logChanClose`.
`some entries` is the complete sequence of strings delivered on the
channel before it is closed; `none` means the channel is never closed. -/
def logChanLoop (content : List ℕ) (e : CloseErr) : Option (List (List ℕ)) :=
  match h : breakAfterNl content with
  | some (line, rest) => (logChanLoop rest e).map (fun ls => line :: ls)
  | none => logChanClose e
termination_by content.length
decreasing_by exact breakAfterNl_shrinks h

/-!
## Specification-side definitions

The following definitions are not translations of the source; they state,
in the most direct way, what the specification says the code computes,
to be compared with the embedded code.
-/

/-- Drop everything up to and including the first newline (the whole
sequence has no newline: drop everything).  `dropThroughNthNl s n` is
"the content after the `n`-th newline", the specification's naive
description of the seed trim. -/
def dropThroughNl : List ℕ → List ℕ
  | [] => []
  | b :: r => if b = nl then r else dropThroughNl r

/-- The content of `s` after its `n`-th newline (counting from 1):
the naive "keep only the last `countNl s - n` lines" computation. -/
def dropThroughNthNl : List ℕ → ℕ → List ℕ
  | s, 0 => s
  | s, n + 1 => dropThroughNthNl (dropThroughNl s) n

/-- Naive line splitting: the newline-terminated lines of `s` in order,
paired with the trailing unterminated remainder. -/
def splitLines (s : List ℕ) : List (List ℕ) × List ℕ :=
  match h : breakAfterNl s with
  | some (line, rest) => (line :: (splitLines rest).1, (splitLines rest).2)
  | none => ([], s)
termination_by s.length
decreasing_by exact breakAfterNl_shrinks h

/-- Applying the first-read seed trim to every poll independently
(what a session does while its stored offset stays `0`). -/
def seedAll (tl : ℤ) : List Snapshot → Option (List (List ℕ))
  | [] => some []
  | s :: rest =>
    match firstReadData s.data tl with
    | none => none
    | some d => (seedAll tl rest).map (fun ds => d :: ds)

/-- A well-behaved poll sequence against the final log content `log`,
starting from stored offset `prev`: every snapshot reports a strictly
larger end offset within the log, its chunk is a suffix of the log up to
that offset, and the chunk window covers at least the newly appended
bytes (the spec's "endOffset advances by exactly the previous advance"
normal-operation hypothesis). -/
def GoodPolls (log : List ℕ) : ℤ → List Snapshot → Prop
  | _, [] => True
  | prev, s :: rest =>
    prev < s.endOffset ∧ s.endOffset ≤ (log.length : ℤ) ∧
    s.endOffset - prev ≤ (s.data.length : ℤ) ∧
    s.data <:+ log.take s.endOffset.toNat ∧
    GoodPolls log s.endOffset rest

/-!
## Helper lemmas
-/

theorem breakAfterNl_eq_none_iff {s : List ℕ} :
    breakAfterNl s = none ↔ nl ∉ s := by
  induction s with
  | nil => simp [breakAfterNl]
  | cons b rest ih =>
    by_cases hb : b = nl
    · subst hb; simp [breakAfterNl]
    · have hb' : ¬ nl = b := fun hc => hb hc.symm
      simp only [breakAfterNl, if_neg hb, List.mem_cons]
      cases hr : breakAfterNl rest with
      | none =>
        have : nl ∉ rest := ih.mp hr
        simp [this, hb']
      | some q =>
        have hmem : nl ∈ rest := by
          by_contra hn
          have := ih.mpr hn
          rw [this] at hr
          cases hr
        simp [hmem]

theorem breakAfterNl_some_spec {s pre post : List ℕ}
    (h : breakAfterNl s = some (pre, post)) :
    ∃ pre', pre = pre' ++ [nl] ∧ nl ∉ pre' ∧ s = pre' ++ nl :: post := by
  induction s generalizing pre post with
  | nil => simp [breakAfterNl] at h
  | cons b rest ih =>
    by_cases hb : b = nl
    · subst hb
      simp [breakAfterNl] at h
      obtain ⟨h1, h2⟩ := h
      subst h1; subst h2
      exact ⟨[], rfl, by simp, rfl⟩
    · simp only [breakAfterNl, if_neg hb] at h
      cases hr : breakAfterNl rest with
      | none => rw [hr] at h; cases h
      | some q =>
        obtain ⟨p1, p2⟩ := q
        rw [hr] at h
        simp only [Option.some.injEq, Prod.mk.injEq] at h
        obtain ⟨h1, h2⟩ := h
        obtain ⟨pre', hp1, hp2, hp3⟩ := ih hr
        refine ⟨b :: pre', ?_, ?_, ?_⟩
        · rw [← h1, hp1]; simp
        · simp only [List.mem_cons, not_or]
          exact ⟨fun hc => hb hc.symm, hp2⟩
        · rw [hp3]; simp [h2]

theorem dropThroughNl_append_of_not_mem {pre post : List ℕ}
    (h : nl ∉ pre) : dropThroughNl (pre ++ nl :: post) = post := by
  induction pre with
  | nil => simp [dropThroughNl]
  | cons b r ih =>
    simp only [List.mem_cons, not_or] at h
    have hb : ¬ b = nl := fun hc => h.1 hc.symm
    simp only [List.cons_append, dropThroughNl, if_neg hb]
    exact ih h.2

theorem countNl_append_of_not_mem {pre post : List ℕ}
    (h : nl ∉ pre) : countNl (pre ++ nl :: post) = countNl post + 1 := by
  have hpre : countNl pre = 0 := by
    simp only [countNl, List.countP_eq_zero]
    intro a ha
    simp only [decide_eq_true_eq]
    exact fun hc => h (hc ▸ ha)
  have h2 : countNl (nl :: post) = countNl post + 1 := by
    simp [countNl, List.countP_cons]
  have h3 : countNl (pre ++ nl :: post) = countNl pre + countNl (nl :: post) := by
    simp [countNl, List.countP_append]
  rw [h3, hpre, h2]
  omega

/-- The last of `n + 1` substrings produced by `SplitAfterN` is exactly the
content after the `n`-th newline, whenever the data has at least `n`
newlines (so the indexing cannot go out of range). -/
theorem splitAfterN_get_last :
    ∀ (n : ℕ) (s : List ℕ), n ≤ countNl s →
      (splitAfterN s (n + 1)).get? n = some (dropThroughNthNl s n) := by
  intro n
  induction n with
  | zero =>
    intro s _
    simp [splitAfterN, dropThroughNthNl]
  | succ n ih =>
    intro s hn
    have hmem : nl ∈ s := by
      by_contra hno
      have hz : countNl s = 0 := by
        simp only [countNl, List.countP_eq_zero]
        intro a ha
        simp only [decide_eq_true_eq]
        exact fun hc => hno (hc ▸ ha)
      omega
    obtain ⟨q, hbr⟩ : ∃ q, breakAfterNl s = some q := by
      cases hb : breakAfterNl s with
      | none => exact absurd (breakAfterNl_eq_none_iff.mp hb) (by simp [hmem])
      | some q => exact ⟨q, rfl⟩
    obtain ⟨pre, post⟩ := q
    obtain ⟨pre', hp1, hp2, hp3⟩ := breakAfterNl_some_spec hbr
    have hdrop : dropThroughNl s = post := by
      rw [hp3]; exact dropThroughNl_append_of_not_mem hp2
    have hcount : countNl s = countNl post + 1 := by
      rw [hp3]; exact countNl_append_of_not_mem hp2
    show (splitAfterN s (n + 2)).get? (n + 1) = _
    rw [show splitAfterN s (n + 2) = pre :: splitAfterN post (n + 1) from by
      simp only [splitAfterN, hbr]]
    rw [List.get?_cons_succ]
    rw [ih post (by omega)]
    simp only [dropThroughNthNl, hdrop]

/-- Under `0 ≤ tailLine` and more newlines than `tailLine`, the first-read
trim of `tailLog` computes the naive "content after the
`(countNl - tailLine)`-th newline" and does not panic. -/
theorem firstReadData_eq_trim {data : List ℕ} {tl : ℤ} (h0 : 0 ≤ tl)
    (hlt : tl < (countNl data : ℤ)) :
    firstReadData data tl =
      some (dropThroughNthNl data (countNl data - tl.toNat)) := by
  have hn : ((countNl data : ℤ) - tl).toNat = countNl data - tl.toNat := by omega
  have hn1 : ((countNl data : ℤ) - tl + 1).toNat = (countNl data - tl.toNat) + 1 := by
    omega
  unfold firstReadData
  rw [if_pos hlt, hn1, hn]
  exact splitAfterN_get_last _ _ (by omega)

theorem firstReadData_eq_of_le {data : List ℕ} {tl : ℤ}
    (h : (countNl data : ℤ) ≤ tl) : firstReadData data tl = some data := by
  unfold firstReadData
  rw [if_neg (by omega)]

theorem firstReadData_total {data : List ℕ} {tl : ℤ} (h0 : 0 ≤ tl) :
    ∃ d, firstReadData data tl = some d := by
  by_cases hlt : tl < (countNl data : ℤ)
  · exact ⟨_, firstReadData_eq_trim h0 hlt⟩
  · exact ⟨_, firstReadData_eq_of_le (by omega)⟩

theorem dropThroughNl_suffix (s : List ℕ) : dropThroughNl s <:+ s := by
  induction s with
  | nil => exact List.suffix_rfl
  | cons b r ih =>
    by_cases hb : b = nl
    · simp only [dropThroughNl, if_pos hb]
      exact (List.suffix_cons b r)
    · simp only [dropThroughNl, if_neg hb]
      exact ih.trans (List.suffix_cons b r)

theorem dropThroughNthNl_suffix (n : ℕ) :
    ∀ s : List ℕ, dropThroughNthNl s n <:+ s := by
  induction n with
  | zero => intro s; exact List.suffix_rfl
  | succ n ih =>
    intro s
    simp only [dropThroughNthNl]
    exact (ih (dropThroughNl s)).trans (dropThroughNl_suffix s)

theorem firstReadData_suffix {data d : List ℕ} {tl : ℤ} (h0 : 0 ≤ tl)
    (h : firstReadData data tl = some d) : d <:+ data := by
  by_cases hlt : tl < (countNl data : ℤ)
  · rw [firstReadData_eq_trim h0 hlt] at h
    injection h with h'
    exact h' ▸ dropThroughNthNl_suffix _ data
  · rw [firstReadData_eq_of_le (by omega)] at h
    injection h with h'
    exact h' ▸ List.suffix_rfl

theorem subsequentStep_nonpos {data : List ℕ} {offset newOffset : ℤ}
    (h : newOffset - offset ≤ 0) :
    subsequentStep data offset newOffset = some (data, offset) := by
  unfold subsequentStep
  rw [if_neg (by omega)]

theorem subsequentStep_pos {data : List ℕ} {offset newOffset : ℤ}
    (h : 0 < newOffset - offset) (hle : newOffset - offset ≤ (data.length : ℤ)) :
    subsequentStep data offset newOffset =
      some (data.drop (data.length - (newOffset - offset).toNat), newOffset) := by
  simp only [subsequentStep]
  rw [if_pos h,
    if_pos (show (0 : ℤ) ≤ (data.length : ℤ) - (newOffset - offset) by omega)]
  have he : ((data.length : ℤ) - (newOffset - offset)).toNat =
      data.length - (newOffset - offset).toNat := by omega
  rw [he]

theorem subsequentStep_panic {data : List ℕ} {offset newOffset : ℤ}
    (h : 0 < newOffset - offset) (hgt : (data.length : ℤ) < newOffset - offset) :
    subsequentStep data offset newOffset = none := by
  simp only [subsequentStep]
  rw [if_pos h, if_neg (by omega)]

theorem tailLogTick_first {tl : ℤ} {s : Snapshot} :
    tailLogTick 0 tl s = (firstReadData s.data tl).map (fun d => (s.endOffset, d)) := by
  simp [tailLogTick]

theorem tailLogTick_nonpos {offset tl : ℤ} {s : Snapshot} (h0 : offset ≠ 0)
    (h : s.endOffset - offset ≤ 0) :
    tailLogTick offset tl s = some (offset, s.data) := by
  simp [tailLogTick, if_neg h0, subsequentStep_nonpos h]

theorem tailLogTick_pos {offset tl : ℤ} {s : Snapshot} (h0 : offset ≠ 0)
    (h : 0 < s.endOffset - offset) (hle : s.endOffset - offset ≤ (s.data.length : ℤ)) :
    tailLogTick offset tl s =
      some (s.endOffset,
        s.data.drop (s.data.length - (s.endOffset - offset).toNat)) := by
  simp [tailLogTick, if_neg h0, subsequentStep_pos h hle]

theorem tailLogTick_panic {offset tl : ℤ} {s : Snapshot} (h0 : offset ≠ 0)
    (h : 0 < s.endOffset - offset) (hgt : (s.data.length : ℤ) < s.endOffset - offset) :
    tailLogTick offset tl s = none := by
  simp [tailLogTick, if_neg h0, subsequentStep_panic h hgt]

theorem logChanLoop_break_some {c line rest : List ℕ} {e : CloseErr}
    (h : breakAfterNl c = some (line, rest)) :
    logChanLoop c e = (logChanLoop rest e).map (fun ls => line :: ls) := by
  rw [logChanLoop.eq_def]
  split
  · next l r heq =>
      rw [h] at heq
      injection heq with heq
      injection heq with h1 h2
      subst h1; subst h2
      rfl
  · next heq => rw [h] at heq; cases heq

theorem logChanLoop_break_none {c : List ℕ} {e : CloseErr}
    (h : breakAfterNl c = none) :
    logChanLoop c e = logChanClose e := by
  rw [logChanLoop.eq_def]
  split
  · next l r heq => rw [h] at heq; cases heq
  · rfl

theorem splitLines_break_some {c line rest : List ℕ}
    (h : breakAfterNl c = some (line, rest)) :
    splitLines c = (line :: (splitLines rest).1, (splitLines rest).2) := by
  rw [splitLines.eq_def]
  split
  · next l r heq =>
      rw [h] at heq
      injection heq with heq
      injection heq with h1 h2
      subst h1; subst h2
      rfl
  · next heq => rw [h] at heq; cases heq

theorem splitLines_break_none {c : List ℕ} (h : breakAfterNl c = none) :
    splitLines c = ([], c) := by
  rw [splitLines.eq_def]
  split
  · next l r heq => rw [h] at heq; cases heq
  · rfl

/-- For any close error other than `io.EOF`, the channel delivers the
newline-terminated lines of the content followed by exactly the error's
description, and is then closed. -/
theorem logChanLoop_msg (c d : List ℕ) :
    logChanLoop c (.msg d) = some ((splitLines c).1 ++ [d]) := by
  induction c using splitLines.induct with
  | case1 c line rest hbr ih =>
    rw [logChanLoop_break_some hbr, splitLines_break_some hbr, ih]
    rfl
  | case2 c hbr =>
    rw [logChanLoop_break_none hbr, splitLines_break_none hbr]
    rfl

/-- When the pipe is closed carrying `io.EOF`, the reader loop retries
forever: the channel is never closed. -/
theorem logChanLoop_ioEOF (c : List ℕ) : logChanLoop c .ioEOF = none := by
  induction c using splitLines.induct with
  | case1 c line rest hbr ih =>
    rw [logChanLoop_break_some hbr, ih]
    rfl
  | case2 c hbr =>
    rw [logChanLoop_break_none hbr]
    rfl

/-- The emitted lines and the discarded remainder partition the content. -/
theorem splitLines_join (c : List ℕ) :
    ((splitLines c).1).flatten ++ (splitLines c).2 = c := by
  induction c using splitLines.induct with
  | case1 c line rest hbr ih =>
    rw [splitLines_break_some hbr]
    obtain ⟨pre', hp1, hp2, hp3⟩ := breakAfterNl_some_spec hbr
    simp only [List.flatten_cons, List.append_assoc, ih, hp3, hp1]
    simp
  | case2 c hbr =>
    rw [splitLines_break_none hbr]
    simp

/-- Every line the splitter produces is newline-terminated: it consists of
newline-free content followed by exactly one final newline. -/
theorem splitLines_lines (c : List ℕ) :
    ∀ l ∈ (splitLines c).1, ∃ l', l = l' ++ [nl] ∧ nl ∉ l' := by
  induction c using splitLines.induct with
  | case1 c line rest hbr ih =>
    rw [splitLines_break_some hbr]
    intro l hl
    rcases List.mem_cons.mp hl with h | h
    · obtain ⟨pre', hp1, hp2, _⟩ := breakAfterNl_some_spec hbr
      exact ⟨pre', h ▸ hp1, hp2⟩
    · exact ih l h
  | case2 c hbr =>
    rw [splitLines_break_none hbr]
    intro l hl
    cases hl

/-- The trailing remainder the splitter holds back contains no newline. -/
theorem splitLines_leftover (c : List ℕ) : nl ∉ (splitLines c).2 := by
  induction c using splitLines.induct with
  | case1 c line rest hbr ih =>
    rw [splitLines_break_some hbr]
    exact ih
  | case2 c hbr =>
    rw [splitLines_break_none hbr]
    exact breakAfterNl_eq_none_iff.mp hbr

/-- Two adjacent log windows concatenate: the slice from `o` to `e`
followed by the slice from `e` to `f` is the slice from `o` to `f`. -/
theorem take_drop_merge (log : List ℕ) {o e f : ℕ} (ho : o ≤ e) (he : e ≤ f)
    (hf : f ≤ log.length) :
    (log.take e).drop o ++ (log.take f).drop e = (log.take f).drop o := by
  have h1 : log.take e = (log.take f).take e := by
    rw [List.take_take, min_eq_left he]
  have hlen : ((log.take f).take e).length = e := by
    rw [List.length_take, List.length_take]
    omega
  have h2 : (log.take f).drop o =
      ((log.take f).take e).drop o ++ (log.take f).drop e := by
    conv_lhs => rw [← List.take_append_drop e (log.take f)]
    rw [List.drop_append_eq_append_drop, hlen, Nat.sub_eq_zero_of_le ho,
      List.drop_zero]
  rw [h1, h2]

/-- Running the reconciler over a well-behaved poll sequence (strictly
advancing offsets, windows covering the newly appended bytes) from a
positive stored offset never panics and writes, tick by tick, exactly
the log content between the starting offset and the final offset. -/
theorem tailLogRun_good (log : List ℕ) (tl : ℤ) :
    ∀ (polls : List Snapshot) (offset : ℤ), 0 < offset →
      offset ≤ (log.length : ℤ) → GoodPolls log offset polls →
      ∃ f ds, tailLogRun tl offset polls = some (f, ds) ∧ offset ≤ f ∧
        f ≤ (log.length : ℤ) ∧
        ds.flatten = (log.take f.toNat).drop offset.toNat := by
  intro polls
  induction polls with
  | nil =>
    intro offset h0 hlen _
    refine ⟨offset, [], rfl, le_refl _, hlen, ?_⟩
    have : (log.take offset.toNat).length ≤ offset.toNat := by
      rw [List.length_take]; omega
    rw [List.flatten_nil, List.drop_eq_nil_of_le this]
  | cons s rest ih =>
    intro offset h0 hlen hgood
    obtain ⟨h1, h2, h3, h4, h5⟩ := hgood
    obtain ⟨u, hu⟩ := h4
    have hLlen : (log.take s.endOffset.toNat).length = s.endOffset.toNat := by
      rw [List.length_take]; omega
    have hulen : u.length + s.data.length = s.endOffset.toNat := by
      have := congrArg List.length hu
      simp only [List.length_append] at this
      omega
    have hdata : s.data = (log.take s.endOffset.toNat).drop u.length := by
      rw [← hu, List.drop_left]
    have hidx : u.length + (s.data.length - (s.endOffset - offset).toNat) =
        offset.toNat := by omega
    have hdelta :
        s.data.drop (s.data.length - (s.endOffset - offset).toNat) =
          (log.take s.endOffset.toNat).drop offset.toNat := by
      calc s.data.drop (s.data.length - (s.endOffset - offset).toNat)
          = ((log.take s.endOffset.toNat).drop u.length).drop
              (s.data.length - (s.endOffset - offset).toNat) := by rw [← hdata]
        _ = (log.take s.endOffset.toNat).drop
              (u.length + (s.data.length - (s.endOffset - offset).toNat)) := by
              rw [List.drop_drop]
        _ = (log.take s.endOffset.toNat).drop offset.toNat := by rw [hidx]
    have htick := @tailLogTick_pos offset tl s (by omega) (by omega) h3
    obtain ⟨f, ds, hrun, hof, hfl, hjoin⟩ :=
      ih s.endOffset (by omega) h2 h5
    refine ⟨f,
      s.data.drop (s.data.length - (s.endOffset - offset).toNat) :: ds,
      ?_, by omega, hfl, ?_⟩
    · simp only [tailLogRun, htick, hrun, Option.map_some']
    · rw [List.flatten_cons, hdelta, hjoin]
      have hoe : offset.toNat ≤ s.endOffset.toNat := by omega
      have hef : s.endOffset.toNat ≤ f.toNat := by omega
      have hflog : f.toNat ≤ log.length := by omega
      exact take_drop_merge log hoe hef hflog

/-- C10: if the first successful poll (and every later one) reports
`endOffset = 0` — an empty, never-written remote log — the stored offset
remains `0`, so every subsequent poll is again treated as the session's
first poll: the run applies the seed-line trim (`firstReadData`) to each
full chunk independently (`seedAll`), never computes an advance-based
delta, and ends with the stored offset still `0`. -/
theorem c10_zero_offset_reseed (tl : ℤ) :
    ∀ polls : List Snapshot, (∀ s ∈ polls, s.endOffset = 0) →
      tailLogRun tl 0 polls = (seedAll tl polls).map (fun ds => ((0 : ℤ), ds)) := by
  intro polls
  induction polls with
  | nil => intro _; rfl
  | cons s rest ih =>
    intro h
    have hs : s.endOffset = 0 := h s (by simp)
    have hrest := ih (fun x hx => h x (List.mem_cons_of_mem _ hx))
    have htick : tailLogTick 0 tl s =
        (firstReadData s.data tl).map (fun d => ((0 : ℤ), d)) := by
      rw [tailLogTick_first, hs]
    cases hf : firstReadData s.data tl with
    | none =>
      simp only [tailLogRun, seedAll, htick, hf, Option.map_none']
    | some d =>
      simp only [tailLogRun, seedAll, htick, hf, Option.map_some', hrest]
      cases seedAll tl rest with
      | none => rfl
      | some ds => rfl

/-- C10 witness: two polls both reporting `endOffset = 0` with `tailLine = 1`;
the run keeps offset `0` and seed-trims each chunk independently. -/
theorem c10_witness :
    tailLogRun 1 0 [⟨[97, 10, 98, 10], 0⟩, ⟨[99, 10], 0⟩] =
      (seedAll 1 [⟨[97, 10, 98, 10], 0⟩, ⟨[99, 10], 0⟩]).map
        (fun ds => ((0 : ℤ), ds)) :=
  c10_zero_offset_reseed 1 [⟨[97, 10, 98, 10], 0⟩, ⟨[99, 10], 0⟩] (by decide)

/-!
## Claims
-/

/-- C1: for a session whose successful polls each return a chunk that is a
suffix of the remote log ending at the reported `endOffset`, with offsets
strictly advancing and each window covering the newly appended bytes
(`GoodPolls`), the reconciler never panics; concatenating all deltas after
the first poll yields exactly the log content between the first and the
final offset (no byte repeated, no byte missing), and prepending the
seed-trimmed first output reproduces a contiguous suffix of the log. -/
theorem c1_no_duplication_no_gaps (log : List ℕ) (tl : ℤ) (s₀ : Snapshot)
    (polls : List Snapshot) (htl : 0 ≤ tl) (he0 : 0 < s₀.endOffset)
    (hle : s₀.endOffset ≤ (log.length : ℤ))
    (hsuf : s₀.data <:+ log.take s₀.endOffset.toNat)
    (hgood : GoodPolls log s₀.endOffset polls) :
    ∃ seed f ds,
      tailLogTick 0 tl s₀ = some (s₀.endOffset, seed) ∧
      tailLogRun tl s₀.endOffset polls = some (f, ds) ∧
      ds.flatten = (log.take f.toNat).drop s₀.endOffset.toNat ∧
      seed.length ≤ s₀.endOffset.toNat ∧
      seed ++ ds.flatten =
        (log.take f.toNat).drop (s₀.endOffset.toNat - seed.length) := by
  obtain ⟨seed, hseed⟩ := @firstReadData_total s₀.data tl htl
  have hseedsuf : seed <:+ log.take s₀.endOffset.toNat :=
    (firstReadData_suffix htl hseed).trans hsuf
  obtain ⟨u, hu⟩ := hseedsuf
  have hLlen : (log.take s₀.endOffset.toNat).length = s₀.endOffset.toNat := by
    rw [List.length_take]; omega
  have hulen : u.length + seed.length = s₀.endOffset.toNat := by
    have := congrArg List.length hu
    simp only [List.length_append] at this
    omega
  have hseedeq : seed = (log.take s₀.endOffset.toNat).drop u.length := by
    rw [← hu, List.drop_left]
  obtain ⟨f, ds, hrun, hof, hfl, hjoin⟩ :=
    tailLogRun_good log tl polls s₀.endOffset he0 hle hgood
  refine ⟨seed, f, ds, ?_, hrun, hjoin, by omega, ?_⟩
  · rw [tailLogTick_first, hseed]
    rfl
  · have hu' : u.length = s₀.endOffset.toNat - seed.length := by omega
    rw [hjoin]
    conv_lhs => rw [hseedeq]
    rw [hu']
    exact @take_drop_merge log (s₀.endOffset.toNat - seed.length)
      s₀.endOffset.toNat f.toNat (by omega) (by omega) (by omega)

/-- C1 witness: log `"a\nb\nc\nd\n"`, `tailLine = 1`, first poll returns the
first six bytes at offset 6, second poll a four-byte window at offset 8. -/
theorem c1_witness :
    ∃ seed f ds,
      tailLogTick 0 1 ⟨[97, 10, 98, 10, 99, 10], 6⟩ = some (6, seed) ∧
      tailLogRun 1 6 [⟨[99, 10, 100, 10], 8⟩] = some (f, ds) ∧
      ds.flatten =
        (([97, 10, 98, 10, 99, 10, 100, 10] : List ℕ).take f.toNat).drop
          ((6 : ℤ)).toNat ∧
      seed.length ≤ ((6 : ℤ)).toNat ∧
      seed ++ ds.flatten =
        (([97, 10, 98, 10, 99, 10, 100, 10] : List ℕ).take f.toNat).drop
          (((6 : ℤ)).toNat - seed.length) :=
  c1_no_duplication_no_gaps [97, 10, 98, 10, 99, 10, 100, 10] 1
    ⟨[97, 10, 98, 10, 99, 10], 6⟩ [⟨[99, 10, 100, 10], 8⟩]
    (by decide) (by decide) (by decide) (by decide)
    ⟨by decide, by decide, by decide, by decide, trivial⟩

/-- C2 counterexample: a poll after the first with `advance = 0` and a
non-empty chunk (`offset = 8`, chunk `"a\n"`, `endOffset = 8`): the code
leaves `data` untrimmed, so the full non-empty chunk is written to the
pipe — not the empty delta the claim requires. -/
theorem c2_counterexample :
    tailLogTick 8 10 ⟨[97, 10], 8⟩ = some (8, [97, 10]) ∧
    ([97, 10] : List ℕ) ≠ [] := by
  constructor
  · decide
  · decide

/-- C2 amended: for every poll after the first with `advance ≤ 0`, the
session does not error and polling continues, but the reconciler passes
the returned chunk through unchanged (the stored offset also unchanged):
the delta is the entire chunk, and it is written to the handoff buffer
whenever the chunk is non-empty — the delta is empty only when the chunk
itself is empty. -/
theorem c2_amended (offset tl : ℤ) (s : Snapshot) (h0 : offset ≠ 0)
    (h : s.endOffset - offset ≤ 0) :
    tailLogTick offset tl s = some (offset, s.data) :=
  tailLogTick_nonpos h0 h

/-- C2 amended, witness: truncation poll (`offset = 8`, `endOffset = 5`)
with chunk `"a\n"` passes the chunk through and keeps offset 8. -/
theorem c2_amended_witness :
    tailLogTick 8 10 ⟨[97, 10], 5⟩ = some (8, [97, 10]) :=
  c2_amended 8 10 ⟨[97, 10], 5⟩ (by decide) (by decide)

/-- C3 counterexample: truncation poll with `offset = 8`, `endOffset = 5`
(the spec's own example "lastOffset updated to 5"): the code keeps the
stored offset at 8 — it does not set it to the snapshot's `endOffset`. -/
theorem c3_counterexample :
    tailLogTick 8 10 ⟨[], 5⟩ = some (8, []) ∧ (8 : ℤ) ≠ 5 := by
  constructor
  · decide
  · decide

/-- C3 amended: on a successful (non-panicking) poll after the first, the
stored offset is set to the snapshot's `endOffset` only when
`advance > 0`; when `advance ≤ 0` (truncation or no new data) the stored
offset is left unchanged. -/
theorem c3_amended (offset tl : ℤ) (s : Snapshot) (o : ℤ) (d : List ℕ)
    (h0 : offset ≠ 0) (h : tailLogTick offset tl s = some (o, d)) :
    (0 < s.endOffset - offset → o = s.endOffset) ∧
    (s.endOffset - offset ≤ 0 → o = offset) := by
  by_cases hadv : 0 < s.endOffset - offset
  · constructor
    · intro _
      by_cases hlen : s.endOffset - offset ≤ (s.data.length : ℤ)
      · rw [tailLogTick_pos h0 hadv hlen] at h
        simp only [Option.some.injEq, Prod.mk.injEq] at h
        exact h.1.symm
      · rw [tailLogTick_panic h0 hadv (by omega)] at h
        cases h
    · intro hc
      omega
  · rw [tailLogTick_nonpos h0 (by omega)] at h
    simp only [Option.some.injEq, Prod.mk.injEq] at h
    exact ⟨fun hc => absurd hc hadv, fun _ => h.1.symm⟩

/-- C3 amended, witness: advancing poll (`offset = 6`, `endOffset = 8`)
updates the stored offset to 8; the truncation side is vacuous there. -/
theorem c3_amended_witness :
    (0 < (8 : ℤ) - 6 → (8 : ℤ) = 8) ∧ ((8 : ℤ) - 6 ≤ 0 → (8 : ℤ) = 6) :=
  c3_amended 6 10 ⟨[98, 10, 99, 10, 100, 10], 8⟩ 8 [100, 10]
    (by decide) (by decide)

/-- C4: on the first poll, if the chunk has more newlines than `seedLines`
(with `seedLines ≥ 0`), the output is byte-identical to the naive
keep-last-K-lines computation — the content after the
`(count - seedLines)`-th newline; if it has fewer newlines than
`seedLines`, the whole chunk is returned. -/
theorem c4_seed_trim (data : List ℕ) (tl : ℤ) (htl : 0 ≤ tl) :
    (tl < (countNl data : ℤ) →
      firstReadData data tl =
        some (dropThroughNthNl data (countNl data - tl.toNat))) ∧
    ((countNl data : ℤ) < tl → firstReadData data tl = some data) := by
  constructor
  · intro h
    exact firstReadData_eq_trim htl h
  · intro h
    exact firstReadData_eq_of_le (by omega)

/-- C4 witness: chunk `"a\nb\nc\n"` with `seedLines = 1` trims to the last
line `"c\n"`, exactly the content after the second newline. -/
theorem c4_witness :
    (1 < (countNl [97, 10, 98, 10, 99, 10] : ℤ) →
      firstReadData [97, 10, 98, 10, 99, 10] 1 =
        some (dropThroughNthNl [97, 10, 98, 10, 99, 10]
          (countNl [97, 10, 98, 10, 99, 10] - (1 : ℤ).toNat))) ∧
    ((countNl [97, 10, 98, 10, 99, 10] : ℤ) < 1 →
      firstReadData [97, 10, 98, 10, 99, 10] 1 = some [97, 10, 98, 10, 99, 10]) :=
  c4_seed_trim [97, 10, 98, 10, 99, 10] 1 (by decide)

/-- C5: with `advance ≤ len(chunk)` the delta is indeed the last `advance`
bytes (second conjunct: the spec's own sliding-window example), but when
`advance` exceeds the chunk's length the slice index `len(data) - advance`
is negative and `data[dataOffset:]` panics — the computation does not
"still succeed with a lossy delta" (first conjunct: `offset = 6`, chunk
`"d\n"`, `endOffset = 11`, so `advance = 5 > 2`). -/
theorem c5_overflow_panics :
    tailLogTick 6 10 ⟨[100, 10], 11⟩ = none ∧
    tailLogTick 6 10 ⟨[98, 10, 99, 10, 100, 10], 8⟩ = some (8, [100, 10]) := by
  constructor
  · decide
  · decide

/-- C6: a poll after the first returning an empty chunk with `advance > 0`
(`offset = 3`, chunk empty, `endOffset = 5`) makes the goroutine panic on
`data[-2:]` — the session crashes instead of surfacing a terminal
protocol error through the output stream. -/
theorem c6_empty_chunk_panics :
    tailLogTick 3 10 ⟨[], 5⟩ = none := by
  decide

/-- C7 counterexample: when the handoff pipe is closed carrying the error
`io.EOF`, the splitter treats it as "no data yet", sleeps and retries
forever: the channel is never closed and no entry carrying the error's
description (or any entry at all) is emitted — refuting the claim for
this error. -/
theorem c7_counterexample :
    logChanLoop [] CloseErr.ioEOF ≠
      some ((splitLines []).1 ++ [errDescription CloseErr.ioEOF]) := by
  rw [logChanLoop_ioEOF]
  simp

/-- C7 amended: when the handoff buffer is closed carrying any error other
than `io.EOF`, the splitter emits the buffered complete lines followed by
exactly one final entry carrying that error's description and the channel
closes; when the carried error is `io.EOF` the splitter retries forever
and the output sequence never terminates. -/
theorem c7_amended (c d : List ℕ) :
    logChanLoop c (CloseErr.msg d) =
      some ((splitLines c).1 ++ [errDescription (CloseErr.msg d)]) ∧
    logChanLoop c CloseErr.ioEOF = none := by
  exact ⟨logChanLoop_msg c d, logChanLoop_ioEOF c⟩

/-- C8 counterexample: content `"ab"` (no newline) with close error
description `"test"`: the non-empty trailing partial line `"ab"` is not
flushed — the only entry delivered is the error's description. -/
theorem c8_counterexample :
    logChanLoop [97, 98] (CloseErr.msg [116, 101, 115, 116]) =
      some [[116, 101, 115, 116]] ∧
    ([97, 98] : List ℕ) ∉ [([116, 101, 115, 116] : List ℕ)] := by
  constructor
  · rw [logChanLoop_msg]
    rw [splitLines_break_none (by decide)]
    rfl
  · decide

/-- C8 amended: the splitter emits a line only once a newline terminator
has been observed — every entry before the final error entry is
newline-terminated — and the emitted lines together with the trailing
newline-free remainder partition the content; but that non-empty trailing
partial line is discarded at end-of-stream, not flushed: the final entry
is the close error's description. -/
theorem c8_amended (c d : List ℕ) :
    logChanLoop c (CloseErr.msg d) = some ((splitLines c).1 ++ [d]) ∧
    (∀ l ∈ (splitLines c).1, ∃ l', l = l' ++ [nl] ∧ nl ∉ l') ∧
    ((splitLines c).1).flatten ++ (splitLines c).2 = c ∧
    nl ∉ (splitLines c).2 :=
  ⟨logChanLoop_msg c d, splitLines_lines c, splitLines_join c,
    splitLines_leftover c⟩

/-- C9 counterexample: a session cancelled by the caller closes the pipe
with `ctx.Err()` (description `"context canceled"`), and the splitter
delivers that description as a final entry on the output channel — an
error entry describing the cancellation is delivered, refuting the
claim. -/
theorem c9_counterexample :
    logChanLoop []
        (tailLogFinalErr none (some (CloseErr.msg (strBytes "context canceled")))) =
      some [strBytes "context canceled"] ∧
    strBytes "context canceled" ≠ [] := by
  constructor
  · rw [show tailLogFinalErr none
        (some (CloseErr.msg (strBytes "context canceled"))) =
        CloseErr.msg (strBytes "context canceled") from rfl]
    rw [logChanLoop_msg]
    rw [splitLines_break_none (by decide)]
    rfl
  · decide

/-- C9 amended: cancellation is terminal, but before the output channel
closes the splitter delivers exactly one final entry carrying the
cancellation error's description (`"context canceled"`). -/
theorem c9_amended (c : List ℕ) :
    logChanLoop c
        (tailLogFinalErr none (some (CloseErr.msg (strBytes "context canceled")))) =
      some ((splitLines c).1 ++ [strBytes "context canceled"]) :=
  logChanLoop_msg c (strBytes "context canceled")

end Supervisord
